import Mathlib

/-!
Verification of the Matsu DSP library (`source/matsu.hpp`,
`source/606-hat-open.cpp`) against its specification.

Doubles are embedded as real numbers (`ℝ`); `static_cast<int>` /
`static_cast<long>` of a double is truncation toward zero (`rtrunc`);
the external FFT (pffft) is a function parameter of the analyser.
-/

open Real

namespace Matsu

/-- `Max` template from matsu.hpp. -/
noncomputable def cMax (a b : ℝ) : ℝ := if a > b then a else b

/-- `Min` template from matsu.hpp. -/
noncomputable def cMin (a b : ℝ) : ℝ := if a < b then a else b

/-- `Mix` template from matsu.hpp. -/
def cMix (x y a : ℝ) : ℝ := x + (y - x) * a

/-- `Sign` template from matsu.hpp. -/
noncomputable def cSign (x : ℝ) : ℝ := if x > 0 then 1 else -1

/-- `Clamp` template from matsu.hpp. -/
noncomputable def cClamp (v lo hi : ℝ) : ℝ := cMax lo (cMin v hi)

/-- `static_cast<int>` / `static_cast<long>` applied to a double:
truncation toward zero. -/
noncomputable def rtrunc (x : ℝ) : ℤ := if 0 ≤ x then ⌊x⌋ else ⌈x⌉

/-- `MillisecondsToSamples` from matsu.hpp:
`(int)((milliseconds * sampling_frequency) / 1000.0)`. -/
noncomputable def millisecondsToSamples (ms fs : ℝ) : ℤ := rtrunc (ms * fs / 1000)

/-- `ExponentialEasing` from matsu.hpp:
`((exp(a*|x|) - 1) / (exp(a) - 1)) * Sign(x)`. -/
noncomputable def exponentialEasing (x a : ℝ) : ℝ :=
  ((Real.exp (a * |x|) - 1) / (Real.exp a - 1)) * cSign x

/-- `Distortion` from matsu.hpp. -/
noncomputable def distortion (x d asymmetry : ℝ) : ℝ :=
  if x > 0 then (Real.exp (x * d) - 1) / (Real.exp d - 1)
  else -((Real.exp (-x * d * (1 / asymmetry)) - 1) /
         (Real.exp (d * (1 / asymmetry)) - 1)) * asymmetry

/-- `FilterType` from matsu.hpp. -/
inductive CFilterType
  | Lowpass
  | Highpass

/-- The five coefficients stored by `TwoPolesFilter` after construction:
`m_c_b0, m_c[B1], m_c[B2], m_c[A1], m_c[A2]` (already divided by `a0`,
the `A` ones already sign-flipped). -/
structure BiquadCoeffs where
  b0 : ℝ
  b1 : ℝ
  b2 : ℝ
  a1 : ℝ
  a2 : ℝ

/-- The `TwoPolesFilter` constructor from matsu.hpp: cookbook formulae,
then division by `a0`, then the sign flip of the `A` coefficients.
No clamping of any argument is performed by the source. -/
noncomputable def twoPolesInit (t : CFilterType) (cutoff q fs : ℝ) : BiquadCoeffs :=
  let wo := 2 * π * (cutoff / fs)
  let alpha := Real.sin wo / (2 * q)
  match t with
  | CFilterType.Lowpass =>
      let b0 := (1 - Real.cos wo) / 2
      let b1 := 1 - Real.cos wo
      let b2 := (1 - Real.cos wo) / 2
      let a0 := 1 + alpha
      let a1 := -2 * Real.cos wo
      let a2 := 1 - alpha
      ⟨b0 / a0, b1 / a0, b2 / a0, -(a1 / a0), -(a2 / a0)⟩
  | CFilterType.Highpass =>
      let b0 := (1 + Real.cos wo) / 2
      let b1 := -(1 + Real.cos wo)
      let b2 := (1 + Real.cos wo) / 2
      let a0 := 1 + alpha
      let a1 := -2 * Real.cos wo
      let a2 := 1 - alpha
      ⟨b0 / a0, b1 / a0, b2 / a0, -(a1 / a0), -(a2 / a0)⟩

/-- Raw (un-normalized) biquad coefficients, written from the
specification's words: the audio-EQ-cookbook lowpass/highpass formulas
with resonance parameter Q. -/
noncomputable def cookbookRaw (t : CFilterType) (cutoff q fs : ℝ) :
    (ℝ × ℝ × ℝ) × (ℝ × ℝ × ℝ) :=
  let wo := 2 * π * (cutoff / fs)
  let alpha := Real.sin wo / (2 * q)
  match t with
  | CFilterType.Lowpass =>
      (((1 - Real.cos wo) / 2, 1 - Real.cos wo, (1 - Real.cos wo) / 2),
       (1 + alpha, -2 * Real.cos wo, 1 - alpha))
  | CFilterType.Highpass =>
      (((1 + Real.cos wo) / 2, -(1 + Real.cos wo), (1 + Real.cos wo) / 2),
       (1 + alpha, -2 * Real.cos wo, 1 - alpha))

/-- `AdEnvelope2` state from matsu.hpp: `m_attack`, `m_decay` (sample
counts stored as doubles), the two shapes, and the cursor `m_x`. -/
structure AdEnv2 where
  attack : ℝ
  decay : ℝ
  ashape : ℝ
  dshape : ℝ
  x : ℕ

/-- The `AdEnvelope2` constructor from matsu.hpp. -/
noncomputable def mkAdEnvelope2 (ad dd ash dsh fs : ℝ) : AdEnv2 :=
  ⟨((millisecondsToSamples ad fs : ℤ) : ℝ),
   ((millisecondsToSamples dd fs : ℤ) : ℝ), ash, dsh, 0⟩

/-- An `AdEnvelope2` state whose attack and decay fields hold the given
whole sample counts (the form every constructed envelope's fields take,
since `MillisecondsToSamples` returns an integer). -/
def envFromCounts (a d : ℕ) (ash dsh : ℝ) : AdEnv2 := ⟨(a : ℝ), (d : ℝ), ash, dsh, 0⟩

/-- `AdEnvelope2::GetTotalSamples`: `(int)ceil(m_attack + m_decay)`. -/
noncomputable def adGetTotalSamples (e : AdEnv2) : ℤ := ⌈e.attack + e.decay⌉

/-- `AdEnvelope2::Step` from matsu.hpp. -/
noncomputable def adStep (e : AdEnv2) : ℝ × AdEnv2 :=
  let dx : ℝ := (e.x : ℝ)
  let e2 : AdEnv2 := ⟨e.attack, e.decay, e.ashape, e.dshape, e.x + 1⟩
  if dx < e.attack then (exponentialEasing (dx / e.attack) e.ashape, e2)
  else if dx < e.attack + e.decay then
    (exponentialEasing (1 - (dx - e.attack) / e.decay) e.dshape, e2)
  else (0, e2)

/-- `n` successive calls of `AdEnvelope2::Step` (state evolution). -/
noncomputable def adStepN (e : AdEnv2) : ℕ → AdEnv2
  | 0 => e
  | n + 1 => (adStep (adStepN e n)).2

/-- C's `fmod(x, y)`: `x - y * trunc(x / y)`. -/
noncomputable def cFmod (x y : ℝ) : ℝ := x - y * ((rtrunc (x / y) : ℤ) : ℝ)

/-- `Oscillator` state from matsu.hpp: phase, the two phase deltas, the
sweep position and its delta, the feedback accumulator and the two
(pre-scaled) feedback levels. -/
structure OscState where
  phase : ℝ
  pdA : ℝ
  pdB : ℝ
  sweep : ℝ
  sdelta : ℝ
  fdback : ℝ
  flA : ℝ
  flB : ℝ

/-- The `Oscillator` constructor from matsu.hpp. -/
noncomputable def oscMk (fa fb la lb dur fs : ℝ) : OscState :=
  ⟨0, fa / fs * (2 * π), fb / fs * (2 * π), 0,
   1 / ((millisecondsToSamples dur fs : ℤ) : ℝ), 0, la / (π / 2), lb / (π / 2)⟩

/-- `Oscillator::Step` from matsu.hpp; `e` is the caller-supplied
`s_easing` lambda. -/
noncomputable def oscStep (e : ℝ → ℝ) (st : OscState) : ℝ × OscState :=
  let s := cMin (e st.sweep) 1
  let pd := cMix st.pdA st.pdB s
  let fl := cMix st.flA st.flB s
  let ph := cFmod (st.phase + pd) (2 * π)
  let sw := cMin (st.sweep + st.sdelta) 1
  let sg := Real.sin (ph + st.fdback)
  (sg, ⟨ph, st.pdA, st.pdB, sw, st.sdelta, (st.fdback + sg) * fl, st.flA, st.flB⟩)

/-- `n` calls of `Oscillator::Step`, the `k`-th call using easing `es k`. -/
noncomputable def oscStepN (es : ℕ → ℝ → ℝ) (st : OscState) : ℕ → OscState
  | 0 => st
  | n + 1 => (oscStep (es n) (oscStepN es st n)).2

/-- `Oscillator2` state from matsu.hpp (`Oscillator` plus `m_sweep_shape`). -/
structure Osc2State where
  phase : ℝ
  pdA : ℝ
  pdB : ℝ
  sweep : ℝ
  sdelta : ℝ
  sshape : ℝ
  fdback : ℝ
  flA : ℝ
  flB : ℝ

/-- The `Oscillator2` constructor from matsu.hpp. -/
noncomputable def osc2Mk (fa fb la lb dur sshape fs : ℝ) : Osc2State :=
  ⟨0, fa / fs * (2 * π), fb / fs * (2 * π), 0,
   1 / ((millisecondsToSamples dur fs : ℤ) : ℝ), sshape, 0, la / (π / 2), lb / (π / 2)⟩

/-- `Oscillator2::Step` from matsu.hpp (internal exponential easing). -/
noncomputable def osc2Step (st : Osc2State) : ℝ × Osc2State :=
  let s := cMin (1 - exponentialEasing (1 - st.sweep) st.sshape) 1
  let pd := cMix st.pdA st.pdB s
  let fl := cMix st.flA st.flB s
  let ph := cFmod (st.phase + pd) (2 * π)
  let sw := cMin (st.sweep + st.sdelta) 1
  let sg := Real.sin (ph + st.fdback)
  (sg, ⟨ph, st.pdA, st.pdB, sw, st.sdelta, st.sshape, (st.fdback + sg) * fl, st.flA, st.flB⟩)

/-- `n` calls of `Oscillator2::Step`. -/
noncomputable def osc2StepN (st : Osc2State) : ℕ → Osc2State
  | 0 => st
  | n + 1 => (osc2Step (osc2StepN st n)).2

/-- The phase/sweep invariant of the spec for `Oscillator`. -/
def oscInv (st : OscState) : Prop :=
  0 ≤ st.phase ∧ st.phase < 2 * π ∧ 0 ≤ st.sweep ∧ st.sweep ≤ 1

/-- The phase/sweep invariant of the spec for `Oscillator2`. -/
def osc2Inv (st : Osc2State) : Prop :=
  0 ≤ st.phase ∧ st.phase < 2 * π ∧ 0 ≤ st.sweep ∧ st.sweep ≤ 1

/-- A zeroed float buffer (`memset(..., 0, ...)`). -/
def zerosR (n : ℕ) : List ℝ := List.replicate n 0

/-- The read-and-pad step of `Analyser::Analyse` for the primary source:
the callback writes `rd` fresh samples `inc` into the head of the
trailing hop region of `window_a`, and
`memset(window_a + N - hop + read, 0, hop - read)` zeroes the rest. -/
def fillTailA (nw hop rd : ℕ) (wa inc : List ℝ) : List ℝ :=
  wa.take (nw - hop) ++ inc ++ zerosR (hop - rd)

/-- The read-and-pad step of `Analyser::Analyse` for the secondary
source: the callback writes `rd2` samples `inc` into the head of the
trailing hop region of `window_b`; then, when `read2 != 0 &&
read2 != to_read_length`, the source executes
`memset(window_b + N - hop + read, 0, hop - read)` — with the PRIMARY
count `read` in both the offset and the length. -/
def fillTailB (nw hop rd rd2 : ℕ) (wb inc : List ℝ) : List ℝ :=
  let written := wb.take (nw - hop) ++ inc ++ wb.drop (nw - hop + rd2)
  if rd2 = 0 ∨ rd2 = hop then written
  else written.take (nw - hop + rd) ++ zerosR (hop - rd)

/-- The Hann window factor of `Analyser::Analyse`:
`0.5 * (1 - cos((2π * i) / N))`. -/
noncomputable def hannW (nw i : ℕ) : ℝ :=
  (1 / 2) * (1 - Real.cos ((2 * π * (i : ℝ)) / (nw : ℝ)))

/-- The windowing loop of `Analyser::Analyse`:
`window_c[i] = window_a[i] * window`. -/
noncomputable def applyHann (nw : ℕ) (w : List ℝ) : List ℝ :=
  (List.range nw).map (fun i => w.getD i 0 * hannW nw i)

/-- The magnitude loop of `Analyser::Analyse`: `N/2` bins, each
`sqrt(re^2 + im^2) / (N/2)` from the interleaved FFT output. -/
noncomputable def magnitudes (nw : ℕ) (w : List ℝ) : List ℝ :=
  (List.range (nw / 2)).map (fun i =>
    Real.sqrt ((w.getD (2 * i) 0) ^ 2 + (w.getD (2 * i + 1) 0) ^ 2) /
      ((nw / 2 : ℕ) : ℝ))

/-- The per-bin distance of the dual-input branch:
`window_c[i] = sqrtf(powf(m1 - m2, 2))`. -/
noncomputable def diffBins (m1 m2 : List ℝ) : List ℝ :=
  List.zipWith (fun x y => Real.sqrt ((x - y) ^ 2)) m1 m2

/-- The scroll step of `Analyser::Analyse`:
`window[i] = window[i + hop]` for `i < N - hop` (tail unchanged). -/
def scrollWin (nw hop : ℕ) (w : List ℝ) : List ℝ :=
  (w.drop hop).take (nw - hop) ++ w.drop (nw - hop)

/-- The main loop of `Analyser::Analyse`, with the two pull sources
modelled as the remaining sample streams `sa`, `sb` (a read of `hop`
samples delivers `min hop remaining`, as the repository's read
callbacks do) and the external FFT as the function parameter `fft`.
Returns `(ret.windows, diff_sum, diff_div, buffers handed to the
output callback)`. -/
noncomputable def analyseLoop (nw hop : ℕ) (hpos : 0 < hop)
    (fft : List ℝ → List ℝ) (sa sb wa wb : List ℝ) (wins : ℕ) (dSum : ℤ)
    (dDiv : ℕ) (outs : List (List ℝ)) : ℕ × ℤ × ℕ × List (List ℝ) :=
  let rd := min hop sa.length
  let rd2 := min hop sb.length
  let wa1 := fillTailA nw hop rd wa (sa.take rd)
  let wb1 := fillTailB nw hop rd rd2 wb (sb.take rd2)
  let fc := fft (applyHann nw wa1)
  let fd := fft (applyHann nw wb1)
  let out := if rd2 = 0 then magnitudes nw fc
    else diffBins (magnitudes nw fc) (magnitudes nw fd)
  let dSum1 := if rd2 = 0 then dSum
    else dSum + (out.map (fun v => rtrunc (v * 10000))).sum
  let dDiv1 := if rd2 = 0 then dDiv else dDiv + nw / 2
  if hc : rd = hop ∧ (rd2 = 0 ∨ rd2 = hop) then
    analyseLoop nw hop hpos fft (sa.drop rd) (sb.drop rd2)
      (scrollWin nw hop wa1) (if rd2 = 0 then wb1 else scrollWin nw hop wb1)
      (wins + 1) dSum1 dDiv1 (outs ++ [out])
  else (wins + 1, dSum1, dDiv1, outs ++ [out])
termination_by sa.length
decreasing_by
  simp only [List.length_drop]
  have h1 : min hop sa.length ≤ sa.length := min_le_right _ _
  have h2 : min hop sa.length = hop := hc.1
  omega

/-- `Analyser::Output`. -/
structure AnOutput where
  wins : ℕ
  difference : ℝ

/-- `Analyser::Analyse` run from the state the constructor establishes
(`window_a`, `window_b` zeroed, `to_read_length = N / overlaps`),
returning the raw loop results. -/
noncomputable def analyseData (nw overlaps : ℕ) (hpos : 0 < nw / overlaps)
    (fft : List ℝ → List ℝ) (sa sb : List ℝ) : ℕ × ℤ × ℕ × List (List ℝ) :=
  analyseLoop nw (nw / overlaps) hpos fft sa sb (zerosR nw) (zerosR nw) 0 0 0 []

/-- `Analyser::Analyse`: the returned `Output`, with
`ret.difference = (float)diff_sum / (float)diff_div` when
`diff_div != 0` (0 otherwise, from `Output ret = {}`). -/
noncomputable def analyse (nw overlaps : ℕ) (hpos : 0 < nw / overlaps)
    (fft : List ℝ → List ℝ) (sa sb : List ℝ) : AnOutput :=
  ⟨(analyseData nw overlaps hpos fft sa sb).1,
   if (analyseData nw overlaps hpos fft sa sb).2.2.1 ≠ 0 then
     (((analyseData nw overlaps hpos fft sa sb).2.1 : ℤ) : ℝ) /
       (((analyseData nw overlaps hpos fft sa sb).2.2.1 : ℕ) : ℝ)
   else 0⟩

/-- The specification's accumulation, parametric in the
integer-rounding function `rnd`: per bin it accumulates
`rnd(|m1 - m2| * 10000)` of the absolute difference of the two
normalized magnitude spectra (buffer evolution as in the source). The
claim's reading instantiates `rnd` with rounding to nearest; the
corrected reading instantiates it with the floor. -/
noncomputable def specAnalyseLoop (rnd : ℝ → ℤ) (nw hop : ℕ) (hpos : 0 < hop)
    (fft : List ℝ → List ℝ) (sa sb wa wb : List ℝ) (wins : ℕ) (dSum : ℤ)
    (dDiv : ℕ) (outs : List (List ℝ)) : ℕ × ℤ × ℕ × List (List ℝ) :=
  let rd := min hop sa.length
  let rd2 := min hop sb.length
  let wa1 := fillTailA nw hop rd wa (sa.take rd)
  let wb1 := fillTailB nw hop rd rd2 wb (sb.take rd2)
  let fc := fft (applyHann nw wa1)
  let fd := fft (applyHann nw wb1)
  let out := if rd2 = 0 then magnitudes nw fc
    else List.zipWith (fun x y => |x - y|) (magnitudes nw fc) (magnitudes nw fd)
  let dSum1 := if rd2 = 0 then dSum
    else dSum + (List.zipWith (fun x y => rnd (|x - y| * 10000))
      (magnitudes nw fc) (magnitudes nw fd)).sum
  let dDiv1 := if rd2 = 0 then dDiv else dDiv + nw / 2
  if hc : rd = hop ∧ (rd2 = 0 ∨ rd2 = hop) then
    specAnalyseLoop rnd nw hop hpos fft (sa.drop rd) (sb.drop rd2)
      (scrollWin nw hop wa1) (if rd2 = 0 then wb1 else scrollWin nw hop wb1)
      (wins + 1) dSum1 dDiv1 (outs ++ [out])
  else (wins + 1, dSum1, dDiv1, outs ++ [out])
termination_by sa.length
decreasing_by
  simp only [List.length_drop]
  have h1 : min hop sa.length ≤ sa.length := min_le_right _ _
  have h2 : min hop sa.length = hop := hc.1
  omega

/-- The `Settings` struct of 606-hat-open.cpp. -/
structure HatSettings where
  short_gain : ℝ
  long_gain : ℝ
  noise_gain : ℝ
  distortion : ℝ
  clink_gain : ℝ

/-- The candidate-mutation step of the tuning loop in
606-hat-open.cpp's `main`: the four tuned fields are scaled by
`RandomFloat * 0.75 + 1.25` (draws `r1..r4`), then `noise_gain` and
`distortion` are capped by `Min`. The source never assigns the
candidate's `clink_gain` (the `childs` array is uninitialized there);
the unspecified value is the parameter `junk`. -/
noncomputable def mutateChild (s : HatSettings) (r1 r2 r3 r4 junk : ℝ) :
    HatSettings :=
  ⟨s.short_gain * (r1 * 0.75 + 1.25),
   s.long_gain * (r2 * 0.75 + 1.25),
   cMin (s.noise_gain * (r3 * 0.75 + 1.25)) 0.06,
   cMin (s.distortion * (r4 * 0.75 + 1.25)) 8,
   junk⟩

/-- The `first_best` selection loop of 606-hat-open.cpp. -/
noncomputable def firstBest (scores : ℕ → ℝ) : ℕ :=
  (List.range 16).foldl
    (fun best i => if scores i < scores best then i else best) 0

/-- The `second_best` selection loop of 606-hat-open.cpp (starts at
`(first_best + 1) % 16`, skips `first_best`). -/
noncomputable def secondBest (scores : ℕ → ℝ) (fb : ℕ) : ℕ :=
  (List.range 16).foldl
    (fun sb i => if i = fb then sb
      else if scores i < scores sb then i else sb) ((fb + 1) % 16)

/-- The "Mix" recombination step of 606-hat-open.cpp: each of the four
tuned fields of the next seed is `exp((log a + log b) / 2)` of the two
winners' fields; `s.clink_gain` is left untouched. -/
noncomputable def mixSeed (s a b : HatSettings) : HatSettings :=
  ⟨Real.exp ((Real.log a.short_gain + Real.log b.short_gain) / 2),
   Real.exp ((Real.log a.long_gain + Real.log b.long_gain) / 2),
   Real.exp ((Real.log a.noise_gain + Real.log b.noise_gain) / 2),
   Real.exp ((Real.log a.distortion + Real.log b.distortion) / 2),
   s.clink_gain⟩

/-- The specification's analyser output (parametric rounding). -/
noncomputable def specAnalyse (rnd : ℝ → ℤ) (nw overlaps : ℕ)
    (hpos : 0 < nw / overlaps) (fft : List ℝ → List ℝ) (sa sb : List ℝ) :
    AnOutput :=
  ⟨(specAnalyseLoop rnd nw (nw / overlaps) hpos fft sa sb (zerosR nw)
      (zerosR nw) 0 0 0 []).1,
   if (specAnalyseLoop rnd nw (nw / overlaps) hpos fft sa sb (zerosR nw)
      (zerosR nw) 0 0 0 []).2.2.1 ≠ 0 then
     (((specAnalyseLoop rnd nw (nw / overlaps) hpos fft sa sb (zerosR nw)
        (zerosR nw) 0 0 0 []).2.1 : ℤ) : ℝ) /
       (((specAnalyseLoop rnd nw (nw / overlaps) hpos fft sa sb (zerosR nw)
        (zerosR nw) 0 0 0 []).2.2.1 : ℕ) : ℝ)
   else 0⟩

end Matsu

namespace Matsu

lemma cMin_eq (a b : ℝ) : cMin a b = min a b := by
  unfold cMin
  rcases lt_or_ge a b with h | h
  · rw [if_pos h, min_eq_left h.le]
  · rw [if_neg (not_lt.mpr h), min_eq_right h]

lemma rtrunc_of_nonneg {x : ℝ} (h : 0 ≤ x) : rtrunc x = ⌊x⌋ := by
  unfold rtrunc; rw [if_pos h]

lemma adStep_snd (e : AdEnv2) :
    (adStep e).2 = ⟨e.attack, e.decay, e.ashape, e.dshape, e.x + 1⟩ := by
  simp only [adStep]
  split
  · rfl
  · split <;> rfl

lemma adStepN_state (e : AdEnv2) (n : ℕ) :
    adStepN e n = ⟨e.attack, e.decay, e.ashape, e.dshape, e.x + n⟩ := by
  induction n with
  | zero => rfl
  | succ n ih =>
      rw [adStepN, ih, adStep_snd]
      dsimp only
      rw [Nat.add_assoc]

/-- Claim C4 (code bug): the source `Distortion` has no guard for
`amount = 0`; at `x = 1, d = 0, asymmetry = 1` it computes
`(exp 0 - 1) / (exp 0 - 1) = 0 / 0`, which is 0 in real-division
semantics (NaN in IEEE), not the identity value 1 the spec requires. -/
theorem C4_distortion_no_guard : distortion 1 0 1 = 0 ∧ distortion 1 0 1 ≠ 1 := by
  have h : distortion 1 0 1 = 0 := by
    unfold distortion
    rw [if_pos one_pos]
    norm_num
  exact ⟨h, by rw [h]; norm_num⟩

/-- Claim C3, counterexample: `TwoPolesFilter` does not clamp Q, so
constructing with Q = 1/200 (< 0.01) does not give the coefficients of
the clamped Q = 1/100 construction (here at cutoff 1 Hz, fs 4 Hz). -/
theorem C3_cex :
    twoPolesInit CFilterType.Lowpass 1 (1 / 200) 4 ≠
      twoPolesInit CFilterType.Lowpass 1 (1 / 100) 4 := by
  have hwo : 2 * π * ((1 : ℝ) / 4) = π / 2 := by ring
  have hval : ∀ q : ℝ, (twoPolesInit CFilterType.Lowpass 1 q 4).b0 =
      (1 / 2) / (1 + 1 / (2 * q)) := by
    intro q
    unfold twoPolesInit
    simp only [hwo, Real.cos_pi_div_two, Real.sin_pi_div_two]
    norm_num
  intro h
  have hb := congrArg BiquadCoeffs.b0 h
  rw [hval, hval] at hb
  norm_num at hb

/-- Claim C3, amended: no clamping happens; for every cutoff, Q and
sampling frequency the stored `TwoPolesFilter` coefficients are exactly
the audio-EQ-cookbook coefficients at the given (unclamped) arguments,
divided by `a0`, with the recursive-side coefficients sign-flipped. -/
theorem C3_amended (t : CFilterType) (cutoff q fs : ℝ) :
    twoPolesInit t cutoff q fs =
      ⟨(cookbookRaw t cutoff q fs).1.1 / (cookbookRaw t cutoff q fs).2.1,
       (cookbookRaw t cutoff q fs).1.2.1 / (cookbookRaw t cutoff q fs).2.1,
       (cookbookRaw t cutoff q fs).1.2.2 / (cookbookRaw t cutoff q fs).2.1,
       -((cookbookRaw t cutoff q fs).2.2.1 / (cookbookRaw t cutoff q fs).2.1),
       -((cookbookRaw t cutoff q fs).2.2.2 / (cookbookRaw t cutoff q fs).2.1)⟩ := by
  cases t <;> rfl

/-- Claim C5, counterexample: the envelope constructor applies no
1-sample minimum: half a millisecond at 1000 Hz truncates to an attack
length of 0 samples, not at least 1. -/
theorem C5_cex :
    (mkAdEnvelope2 (1 / 2) (1 / 2) 1 1 1000).attack = 0 ∧
      ¬(1 ≤ (mkAdEnvelope2 (1 / 2) (1 / 2) 1 1 1000).attack) := by
  have h : (mkAdEnvelope2 (1 / 2) (1 / 2) 1 1 1000).attack = 0 := by
    unfold mkAdEnvelope2 millisecondsToSamples
    rw [show (1 : ℝ) / 2 * 1000 / 1000 = 1 / 2 by norm_num,
      rtrunc_of_nonneg (by norm_num)]
    norm_num
  exact ⟨h, by rw [h]; norm_num⟩

/-- Claim C5, amended: the millisecond-to-sample conversion truncates
toward zero with no minimum (lengths may be 0), but the divisions inside
`Step`/`Get` are still never by zero: the branch taking `dx / m_attack`
requires `dx < m_attack` (so `m_attack > dx ≥ 0`), and the branch
dividing by `m_decay` requires `m_attack ≤ dx < m_attack + m_decay`
(so `m_decay > 0`). -/
theorem C5_amended (e : AdEnv2) :
    (((e.x : ℕ) : ℝ) < e.attack → 0 < e.attack) ∧
      (¬(((e.x : ℕ) : ℝ) < e.attack) →
        ((e.x : ℕ) : ℝ) < e.attack + e.decay → 0 < e.decay) := by
  constructor
  · intro h
    exact lt_of_le_of_lt (Nat.cast_nonneg e.x) h
  · intro h1 h2
    have := not_lt.mp h1
    linarith

/-- Claim C5, amended, witness at a concrete envelope. -/
theorem C5_amended_witness :
    (((envFromCounts 2 3 1 1).x : ℕ) : ℝ) < (envFromCounts 2 3 1 1).attack ∧
      0 < (envFromCounts 2 3 1 1).attack := by
  refine ⟨by norm_num [envFromCounts], ?_⟩
  exact (C5_amended (envFromCounts 2 3 1 1)).1 (by norm_num [envFromCounts])

/-- Claim C6: for an envelope whose fields hold whole sample counts `a`
and `d`, `GetTotalSamples` is `ceil(attack + decay) = a + d`, and every
`Step` call from the `a + d`-th call on (the first call past the range
and every call after it) returns 0. -/
theorem C6_envelope_tail (a d : ℕ) (ash dsh : ℝ) (n : ℕ) (h : a + d ≤ n) :
    adGetTotalSamples (envFromCounts a d ash dsh) = ⌈((a : ℝ) + (d : ℝ))⌉ ∧
      adGetTotalSamples (envFromCounts a d ash dsh) = (a : ℤ) + (d : ℤ) ∧
      (adStep (adStepN (envFromCounts a d ash dsh) n)).1 = 0 := by
  refine ⟨rfl, ?_, ?_⟩
  · unfold adGetTotalSamples envFromCounts
    dsimp only
    rw [← Nat.cast_add, Int.ceil_natCast]
    push_cast
    ring
  · rw [adStepN_state]
    unfold adStep envFromCounts
    have hx : ((a : ℝ) + (d : ℝ)) ≤ ((0 + n : ℕ) : ℝ) := by
      push_cast
      have : ((a + d : ℕ) : ℝ) ≤ ((n : ℕ) : ℝ) := Nat.cast_le.mpr h
      push_cast at this
      linarith
    have h1 : ¬(((0 + n : ℕ) : ℝ) < (a : ℝ)) := by
      push_cast at hx ⊢
      have : (0 : ℝ) ≤ (d : ℝ) := Nat.cast_nonneg d
      intro hc
      linarith
    have h2 : ¬(((0 + n : ℕ) : ℝ) < (a : ℝ) + (d : ℝ)) := not_lt.mpr hx
    simp only [h1, h2, if_false]

/-- Claim C6, witness. -/
theorem C6_envelope_tail_witness :
    1 + 2 ≤ 3 ∧ (adStep (adStepN (envFromCounts 1 2 0 0) 3)).1 = 0 := by
  exact ⟨by norm_num, (C6_envelope_tail 1 2 0 0 3 (by norm_num)).2.2⟩

lemma cFmod_bounds (x y : ℝ) (hx : 0 ≤ x) (hy : 0 < y) :
    0 ≤ cFmod x y ∧ cFmod x y < y := by
  have hxy : 0 ≤ x / y := div_nonneg hx hy.le
  have hkey : cFmod x y = y * Int.fract (x / y) := by
    unfold cFmod
    rw [rtrunc_of_nonneg hxy, Int.fract, mul_sub, mul_comm y (x / y),
      div_mul_cancel₀ _ hy.ne']
  constructor
  · rw [hkey]
    exact mul_nonneg hy.le (Int.fract_nonneg _)
  · rw [hkey]
    have := mul_lt_mul_of_pos_left (Int.fract_lt_one (x / y)) hy
    linarith

lemma cMix_nonneg (x y a : ℝ) (hx : 0 ≤ x) (hy : 0 ≤ y) (h0 : 0 ≤ a)
    (h1 : a ≤ 1) : 0 ≤ cMix x y a := by
  unfold cMix
  nlinarith

lemma exponentialEasing_le_one {u : ℝ} (a : ℝ) (h0 : 0 ≤ u) (h1 : u ≤ 1) :
    exponentialEasing u a ≤ 1 := by
  unfold exponentialEasing cSign
  rcases eq_or_lt_of_le h0 with h | h
  · rw [← h]
    simp
  · rw [if_pos h, mul_one, abs_of_pos h]
    rcases lt_trichotomy a 0 with ha | ha | ha
    · have hden : Real.exp a - 1 < 0 := by
        have := Real.exp_lt_exp.mpr ha
        rw [Real.exp_zero] at this
        linarith
      have hge : Real.exp a - 1 ≤ Real.exp (a * u) - 1 := by
        have hle : a ≤ a * u := by nlinarith
        have := Real.exp_le_exp.mpr hle
        linarith
      rw [div_le_one_iff]
      right; right
      exact ⟨hden, hge⟩
    · rw [ha]
      simp
    · have hden : 0 < Real.exp a - 1 := by
        have := Real.exp_lt_exp.mpr ha
        rw [Real.exp_zero] at this
        linarith
      rw [div_le_one hden]
      have hle : a * u ≤ a := by nlinarith
      have := Real.exp_le_exp.mpr hle
      linarith

lemma oscStep_preserves (e : ℝ → ℝ) (st : OscState) (h : oscInv st)
    (hpa : 0 ≤ st.pdA) (hpb : 0 ≤ st.pdB) (hsd : 0 ≤ st.sdelta)
    (he : 0 ≤ e st.sweep) :
    oscInv (oscStep e st).2 ∧ st.sweep ≤ (oscStep e st).2.sweep ∧
      (oscStep e st).2.pdA = st.pdA ∧ (oscStep e st).2.pdB = st.pdB ∧
      (oscStep e st).2.sdelta = st.sdelta := by
  obtain ⟨hp0, hp2, hs0, hs1⟩ := h
  have hs_le : cMin (e st.sweep) 1 ≤ 1 := by
    rw [cMin_eq]; exact min_le_right _ _
  have hs_nn : 0 ≤ cMin (e st.sweep) 1 := by
    rw [cMin_eq]; exact le_min he zero_le_one
  have hpd : 0 ≤ cMix st.pdA st.pdB (cMin (e st.sweep) 1) :=
    cMix_nonneg _ _ _ hpa hpb hs_nn hs_le
  have hph := cFmod_bounds (st.phase + cMix st.pdA st.pdB (cMin (e st.sweep) 1))
    (2 * π) (by linarith) Real.two_pi_pos
  have hsw_le1 : cMin (st.sweep + st.sdelta) 1 ≤ 1 := by
    rw [cMin_eq]; exact min_le_right _ _
  have hsw_ge : st.sweep ≤ cMin (st.sweep + st.sdelta) 1 := by
    rw [cMin_eq]; exact le_min (by linarith) hs1
  have hsw_nn : 0 ≤ cMin (st.sweep + st.sdelta) 1 := le_trans hs0 hsw_ge
  exact ⟨⟨hph.1, hph.2, hsw_nn, hsw_le1⟩, hsw_ge, rfl, rfl, rfl⟩

lemma osc2Step_preserves (st : Osc2State) (h : osc2Inv st)
    (hpa : 0 ≤ st.pdA) (hpb : 0 ≤ st.pdB) (hsd : 0 ≤ st.sdelta) :
    osc2Inv (osc2Step st).2 ∧ st.sweep ≤ (osc2Step st).2.sweep ∧
      (osc2Step st).2.pdA = st.pdA ∧ (osc2Step st).2.pdB = st.pdB ∧
      (osc2Step st).2.sdelta = st.sdelta := by
  obtain ⟨hp0, hp2, hs0, hs1⟩ := h
  have hee : exponentialEasing (1 - st.sweep) st.sshape ≤ 1 :=
    exponentialEasing_le_one st.sshape (by linarith) (by linarith)
  have hs_le : cMin (1 - exponentialEasing (1 - st.sweep) st.sshape) 1 ≤ 1 := by
    rw [cMin_eq]; exact min_le_right _ _
  have hs_nn : 0 ≤ cMin (1 - exponentialEasing (1 - st.sweep) st.sshape) 1 := by
    rw [cMin_eq]; exact le_min (by linarith) zero_le_one
  have hpd : 0 ≤ cMix st.pdA st.pdB
      (cMin (1 - exponentialEasing (1 - st.sweep) st.sshape) 1) :=
    cMix_nonneg _ _ _ hpa hpb hs_nn hs_le
  have hph := cFmod_bounds (st.phase + cMix st.pdA st.pdB
      (cMin (1 - exponentialEasing (1 - st.sweep) st.sshape) 1))
    (2 * π) (by linarith) Real.two_pi_pos
  have hsw_le1 : cMin (st.sweep + st.sdelta) 1 ≤ 1 := by
    rw [cMin_eq]; exact min_le_right _ _
  have hsw_ge : st.sweep ≤ cMin (st.sweep + st.sdelta) 1 := by
    rw [cMin_eq]; exact le_min (by linarith) hs1
  have hsw_nn : 0 ≤ cMin (st.sweep + st.sdelta) 1 := le_trans hs0 hsw_ge
  exact ⟨⟨hph.1, hph.2, hsw_nn, hsw_le1⟩, hsw_ge, rfl, rfl, rfl⟩

lemma oscStepN_inv (es : ℕ → ℝ → ℝ) (st : OscState) (h : oscInv st)
    (hpa : 0 ≤ st.pdA) (hpb : 0 ≤ st.pdB) (hsd : 0 ≤ st.sdelta)
    (hes : ∀ k u, 0 ≤ u → u ≤ 1 → 0 ≤ es k u) (n : ℕ) :
    oscInv (oscStepN es st n) ∧ (oscStepN es st n).pdA = st.pdA ∧
      (oscStepN es st n).pdB = st.pdB ∧ (oscStepN es st n).sdelta = st.sdelta := by
  induction n with
  | zero => exact ⟨h, rfl, rfl, rfl⟩
  | succ n ih =>
      obtain ⟨hinv, ha, hb, hd⟩ := ih
      have hstep := oscStep_preserves (es n) (oscStepN es st n) hinv
        (ha ▸ hpa) (hb ▸ hpb) (hd ▸ hsd)
        (hes n _ hinv.2.2.1 hinv.2.2.2)
      exact ⟨hstep.1, hstep.2.2.1.trans ha, hstep.2.2.2.1.trans hb,
        hstep.2.2.2.2.trans hd⟩

lemma osc2StepN_inv (st : Osc2State) (h : osc2Inv st)
    (hpa : 0 ≤ st.pdA) (hpb : 0 ≤ st.pdB) (hsd : 0 ≤ st.sdelta) (n : ℕ) :
    osc2Inv (osc2StepN st n) ∧ (osc2StepN st n).pdA = st.pdA ∧
      (osc2StepN st n).pdB = st.pdB ∧ (osc2StepN st n).sdelta = st.sdelta := by
  induction n with
  | zero => exact ⟨h, rfl, rfl, rfl⟩
  | succ n ih =>
      obtain ⟨hinv, ha, hb, hd⟩ := ih
      have hstep := osc2Step_preserves (osc2StepN st n) hinv
        (ha ▸ hpa) (hb ▸ hpb) (hd ▸ hsd)
      exact ⟨hstep.1, hstep.2.2.1.trans ha, hstep.2.2.2.1.trans hb,
        hstep.2.2.2.2.trans hd⟩

/-- Claim C8: for both swept-sine oscillators constructed with
non-negative frequencies (with a positive sampling frequency and a
non-negative duration, and — for `Oscillator`, whose easing is supplied
by the caller — easings that are non-negative on the sweep range
`[0, 1]`, as all easings used in the repository are), after any number
of `Step`s the phase lies in `[0, 2π)`, and the sweep position is
non-decreasing across steps and never exceeds 1. -/
theorem C8_oscillator_invariants (fa fb2 la lb dur shape fs : ℝ)
    (es : ℕ → ℝ → ℝ) (n : ℕ)
    (hfa : 0 ≤ fa) (hfb : 0 ≤ fb2) (hdur : 0 ≤ dur) (hfs : 0 < fs)
    (hes : ∀ k u, 0 ≤ u → u ≤ 1 → 0 ≤ es k u) :
    (0 ≤ (oscStepN es (oscMk fa fb2 la lb dur fs) n).phase ∧
      (oscStepN es (oscMk fa fb2 la lb dur fs) n).phase < 2 * π ∧
      (oscStepN es (oscMk fa fb2 la lb dur fs) n).sweep ≤
        (oscStepN es (oscMk fa fb2 la lb dur fs) (n + 1)).sweep ∧
      (oscStepN es (oscMk fa fb2 la lb dur fs) n).sweep ≤ 1) ∧
    (0 ≤ (osc2StepN (osc2Mk fa fb2 la lb dur shape fs) n).phase ∧
      (osc2StepN (osc2Mk fa fb2 la lb dur shape fs) n).phase < 2 * π ∧
      (osc2StepN (osc2Mk fa fb2 la lb dur shape fs) n).sweep ≤
        (osc2StepN (osc2Mk fa fb2 la lb dur shape fs) (n + 1)).sweep ∧
      (osc2StepN (osc2Mk fa fb2 la lb dur shape fs) n).sweep ≤ 1) := by
  have hpd : 0 ≤ fa / fs * (2 * π) :=
    mul_nonneg (div_nonneg hfa hfs.le) (by positivity)
  have hpd2 : 0 ≤ fb2 / fs * (2 * π) :=
    mul_nonneg (div_nonneg hfb hfs.le) (by positivity)
  have hsd : 0 ≤ 1 / ((millisecondsToSamples dur fs : ℤ) : ℝ) := by
    apply one_div_nonneg.mpr
    unfold millisecondsToSamples
    rw [rtrunc_of_nonneg (by positivity)]
    exact_mod_cast Int.floor_nonneg.mpr (by positivity)
  have hmk : oscInv (oscMk fa fb2 la lb dur fs) :=
    ⟨le_refl 0, Real.two_pi_pos, le_refl 0, zero_le_one⟩
  have hmk2 : osc2Inv (osc2Mk fa fb2 la lb dur shape fs) :=
    ⟨le_refl 0, Real.two_pi_pos, le_refl 0, zero_le_one⟩
  have h1 := oscStepN_inv es (oscMk fa fb2 la lb dur fs) hmk hpd hpd2 hsd hes n
  have h2 := osc2StepN_inv (osc2Mk fa fb2 la lb dur shape fs) hmk2 hpd hpd2 hsd n
  obtain ⟨⟨i0, i1, i2, i3⟩, ja, jb, jd⟩ := h1
  obtain ⟨⟨k0, k1, k2, k3⟩, la2, lb2, ld⟩ := h2
  constructor
  · refine ⟨i0, i1, ?_, i3⟩
    have := oscStep_preserves (es n) (oscStepN es (oscMk fa fb2 la lb dur fs) n)
      ⟨i0, i1, i2, i3⟩ (ja ▸ hpd) (jb ▸ hpd2) (jd ▸ hsd) (hes n _ i2 i3)
    exact this.2.1
  · refine ⟨k0, k1, ?_, k3⟩
    have := osc2Step_preserves (osc2StepN (osc2Mk fa fb2 la lb dur shape fs) n)
      ⟨k0, k1, k2, k3⟩ (la2 ▸ hpd) (lb2 ▸ hpd2) (ld ▸ hsd)
    exact this.2.1

lemma analyseLoop_count (nw hop : ℕ) (hpos : 0 < hop)
    (fft : List ℝ → List ℝ) :
    ∀ (n : ℕ) (sa : List ℝ), sa.length ≤ n →
      ∀ (sb wa wb : List ℝ) (wins : ℕ) (dSum : ℤ) (dDiv : ℕ)
        (outs : List (List ℝ)),
      (analyseLoop nw hop hpos fft sa sb wa wb wins dSum dDiv outs).1 +
          outs.length =
        (analyseLoop nw hop hpos fft sa sb wa wb wins dSum dDiv outs).2.2.2.length
          + wins ∧
      wins + 1 ≤ (analyseLoop nw hop hpos fft sa sb wa wb wins dSum dDiv outs).1 := by
  intro n
  induction n with
  | zero =>
      intro sa hsa sb wa wb wins dSum dDiv outs
      have hsa0 : sa = [] := List.eq_nil_of_length_eq_zero (Nat.le_zero.mp hsa)
      subst hsa0
      rw [analyseLoop.eq_def]
      dsimp only
      rw [dif_neg (by simp; omega)]
      simp only [List.length_append, List.length_cons, List.length_nil]
      omega
  | succ n ih =>
      intro sa hsa sb wa wb wins dSum dDiv outs
      rw [analyseLoop.eq_def]
      dsimp only
      by_cases hcond : min hop sa.length = hop ∧
          (min hop sb.length = 0 ∨ min hop sb.length = hop)
      · rw [dif_pos hcond]
        have hlen : (sa.drop (min hop sa.length)).length ≤ n := by
          simp only [List.length_drop]
          have := hcond.1
          omega
        have key : ∀ (sb2 wa2 wb2 : List ℝ) (s2 : ℤ) (d2 : ℕ) (o2 : List ℝ),
            (analyseLoop nw hop hpos fft (sa.drop (min hop sa.length)) sb2
                wa2 wb2 (wins + 1) s2 d2 (outs ++ [o2])).1 + outs.length =
              (analyseLoop nw hop hpos fft (sa.drop (min hop sa.length)) sb2
                wa2 wb2 (wins + 1) s2 d2 (outs ++ [o2])).2.2.2.length + wins ∧
            wins + 1 ≤ (analyseLoop nw hop hpos fft
              (sa.drop (min hop sa.length)) sb2 wa2 wb2 (wins + 1) s2 d2
              (outs ++ [o2])).1 := by
          intro sb2 wa2 wb2 s2 d2 o2
          have hres := ih (sa.drop (min hop sa.length)) hlen sb2 wa2 wb2
            (wins + 1) s2 d2 (outs ++ [o2])
          rw [List.length_append] at hres
          simp only [List.length_cons, List.length_nil] at hres
          omega
        exact key _ _ _ _ _ _
      · rw [dif_neg hcond]
        simp only [List.length_append, List.length_cons, List.length_nil]
        omega

lemma zipWith_self_map (f : ℝ → ℝ → ℝ) (m : List ℝ) :
    List.zipWith f m m = m.map (fun x => f x x) := by
  induction m with
  | nil => rfl
  | cons a t ih => simp [List.zipWith, ih]

lemma diffBins_self_sum (m : List ℝ) :
    ((diffBins m m).map (fun v => rtrunc (v * 10000))).sum = 0 := by
  have h1 : diffBins m m = m.map (fun _ => (0 : ℝ)) := by
    unfold diffBins
    rw [zipWith_self_map]
    congr 1
    funext x
    simp
  rw [h1, List.map_map]
  have h2 : (fun v => rtrunc (v * 10000)) ∘ (fun _ : ℝ => (0 : ℝ)) =
      fun _ : ℝ => (0 : ℤ) := by
    funext x
    simp only [Function.comp]
    rw [zero_mul, rtrunc_of_nonneg (le_refl 0), Int.floor_zero]
  rw [h2]
  exact List.sum_eq_zero (by simp)

lemma fillTailA_length (nw hop rd : ℕ) (wa inc : List ℝ) (hhn : hop ≤ nw)
    (hrd : rd ≤ hop) (hwa : wa.length = nw) (hinc : inc.length = rd) :
    (fillTailA nw hop rd wa inc).length = nw := by
  unfold fillTailA zerosR
  simp only [List.length_append, List.length_take, List.length_replicate, hwa,
    hinc]
  omega

lemma scrollWin_length (nw hop : ℕ) (w : List ℝ) (hhn : hop ≤ nw)
    (hw : w.length = nw) : (scrollWin nw hop w).length = nw := by
  unfold scrollWin
  simp only [List.length_append, List.length_take, List.length_drop, hw]
  omega

lemma fillTailB_eq_fillTailA (nw hop rd : ℕ) (wb inc : List ℝ) (hr0 : rd ≠ 0)
    (hrd : rd ≤ hop) (hhn : hop ≤ nw) (hwb : wb.length = nw)
    (hinc : inc.length = rd) :
    fillTailB nw hop rd rd wb inc = fillTailA nw hop rd wb inc := by
  simp only [fillTailB, fillTailA]
  by_cases hh : rd = hop
  · rw [if_pos (Or.inr hh)]
    have hdrop : wb.drop (nw - hop + rd) = [] := by
      apply List.drop_eq_nil_of_le
      rw [hwb]
      omega
    rw [hdrop, hh]
    simp [zerosR]
  · rw [if_neg (fun h => h.elim hr0 hh)]
    congr 1
    refine List.take_left' ?_
    simp only [List.length_append, List.length_take, hwb, hinc]
    omega

lemma analyseLoop_same (nw hop : ℕ) (hpos : 0 < hop) (hhn : hop ≤ nw)
    (fft : List ℝ → List ℝ) :
    ∀ (n : ℕ) (sa wa : List ℝ), sa.length ≤ n → wa.length = nw →
      ∀ (wins : ℕ) (dSum : ℤ) (dDiv : ℕ) (outs : List (List ℝ)),
      (analyseLoop nw hop hpos fft sa sa wa wa wins dSum dDiv outs).2.1 = dSum := by
  intro n
  induction n with
  | zero =>
      intro sa wa hsa hwa wins dSum dDiv outs
      have hnil : sa = [] := List.eq_nil_of_length_eq_zero (Nat.le_zero.mp hsa)
      subst hnil
      rw [analyseLoop.eq_def]
      dsimp only
      simp only [List.length_nil, Nat.min_zero]
      rw [dif_neg (by omega)]
      simp
  | succ n ih =>
      intro sa wa hsa hwa wins dSum dDiv outs
      rw [analyseLoop.eq_def]
      dsimp only
      by_cases hr0 : min hop sa.length = 0
      · simp only [hr0]
        rw [dif_neg (by omega)]
        simp
      · have hrdle : min hop sa.length ≤ hop := min_le_left _ _
        have hrdlen : min hop sa.length ≤ sa.length := min_le_right _ _
        have htake : (sa.take (min hop sa.length)).length = min hop sa.length := by
          simp only [List.length_take]
          omega
        have hB := fillTailB_eq_fillTailA nw hop (min hop sa.length) wa
          (sa.take (min hop sa.length)) hr0 hrdle hhn hwa htake
        rw [hB]
        simp only [if_neg hr0]
        rw [diffBins_self_sum, add_zero]
        by_cases hch : min hop sa.length = hop
        · rw [dif_pos ⟨hch, Or.inr hch⟩]
          apply ih
          · simp only [List.length_drop]
            omega
          · exact scrollWin_length nw hop _ hhn
              (fillTailA_length nw hop _ wa _ hhn hrdle hwa htake)
        · rw [dif_neg (fun h => hch h.1)]

/-- Claim C2: running `Analyser::Analyse` in dual-input mode with two
identical input streams yields `Output.difference == 0` (every per-bin
distance is `sqrt((m - m)^2) = 0`, so the integer accumulator stays 0),
for every FFT function. -/
theorem C2_identical_difference_zero (nw overlaps : ℕ)
    (hpos : 0 < nw / overlaps) (fft : List ℝ → List ℝ) (s : List ℝ) :
    (analyse nw overlaps hpos fft s s).difference = 0 := by
  have hhn : nw / overlaps ≤ nw := Nat.div_le_self _ _
  have h := analyseLoop_same nw (nw / overlaps) hpos hhn fft s.length s
    (zerosR nw) (le_refl _) (by simp [zerosR]) 0 0 0 []
  unfold analyse analyseData
  dsimp only
  rw [h]
  split_ifs <;> simp

/-- Claim C2, witness on a concrete identical pair. -/
theorem C2_identical_difference_zero_witness :
    0 < 2 / 1 ∧
      (analyse 2 1 (by norm_num) id [1, 2] [1, 2]).difference = 0 :=
  ⟨by norm_num, C2_identical_difference_zero 2 1 (by norm_num) id [1, 2]⟩

lemma diffBins_abs (m1 m2 : List ℝ) :
    diffBins m1 m2 = List.zipWith (fun x y => |x - y|) m1 m2 := by
  unfold diffBins
  congr 1
  funext x y
  exact Real.sqrt_sq_eq_abs _

lemma diffBins_map_sum (m1 m2 : List ℝ) :
    ((diffBins m1 m2).map (fun v => rtrunc (v * 10000))).sum =
      (List.zipWith (fun x y => (⌊|x - y| * 10000⌋ : ℤ)) m1 m2).sum := by
  rw [diffBins_abs, List.map_zipWith]
  have h : (fun (x y : ℝ) => rtrunc (|x - y| * 10000)) =
      fun (x y : ℝ) => (⌊|x - y| * 10000⌋ : ℤ) := by
    funext x y
    rw [rtrunc_of_nonneg (mul_nonneg (abs_nonneg _) (by norm_num))]
  rw [h]

lemma analyseLoop_eq_spec (nw hop : ℕ) (hpos : 0 < hop)
    (fft : List ℝ → List ℝ) :
    ∀ (n : ℕ) (sa : List ℝ), sa.length ≤ n →
      ∀ (sb wa wb : List ℝ) (wins : ℕ) (dSum : ℤ) (dDiv : ℕ)
        (outs : List (List ℝ)),
      analyseLoop nw hop hpos fft sa sb wa wb wins dSum dDiv outs =
        specAnalyseLoop (fun z => ⌊z⌋) nw hop hpos fft sa sb wa wb wins dSum
          dDiv outs := by
  intro n
  induction n with
  | zero =>
      intro sa hsa sb wa wb wins dSum dDiv outs
      have hnil : sa = [] := List.eq_nil_of_length_eq_zero (Nat.le_zero.mp hsa)
      subst hnil
      rw [analyseLoop.eq_def, specAnalyseLoop.eq_def]
      dsimp only
      simp only [List.length_nil, Nat.min_zero]
      rw [dif_neg (by omega), dif_neg (by omega)]
      by_cases h2 : min hop sb.length = 0
      · simp only [if_pos h2]
      · simp only [if_neg h2]
        simp only [diffBins_map_sum]
        simp only [diffBins_abs]
  | succ n ih =>
      intro sa hsa sb wa wb wins dSum dDiv outs
      rw [analyseLoop.eq_def, specAnalyseLoop.eq_def]
      dsimp only
      by_cases h2 : min hop sb.length = 0
      · simp only [if_pos h2]
        by_cases hc : min hop sa.length = hop ∧
            (min hop sb.length = 0 ∨ min hop sb.length = hop)
        · rw [dif_pos hc, dif_pos hc]
          apply ih
          simp only [List.length_drop]
          have := hc.1
          omega
        · rw [dif_neg hc, dif_neg hc]
      · simp only [if_neg h2]
        simp only [diffBins_map_sum]
        simp only [diffBins_abs]
        by_cases hc : min hop sa.length = hop ∧
            (min hop sb.length = 0 ∨ min hop sb.length = hop)
        · rw [dif_pos hc, dif_pos hc]
          apply ih
          simp only [List.length_drop]
          have := hc.1
          omega
        · rw [dif_neg hc, dif_neg hc]

/-- Claim C1, amended: what each bin of each dual-mode window adds to
the integer accumulator is `floor(diff * 10000)` — the C cast truncates
toward zero (equal to the floor, the scaled distance being
non-negative) — not `round(diff * 10000)`; with that change the claim
holds: the per-bin absolute spectral differences are accumulated into an
integer sum and a count, and the returned `Output.difference` is that
sum divided by the count. -/
theorem C1_floor_accumulation (nw overlaps : ℕ) (hpos : 0 < nw / overlaps)
    (fft : List ℝ → List ℝ) (sa sb : List ℝ) :
    analyse nw overlaps hpos fft sa sb =
      specAnalyse (fun z => ⌊z⌋) nw overlaps hpos fft sa sb := by
  have h := analyseLoop_eq_spec nw (nw / overlaps) hpos fft sa.length sa
    (le_refl _) sb (zerosR nw) (zerosR nw) 0 0 0 []
  unfold analyse analyseData specAnalyse
  rw [h]

/-- Claim C1, amended, witness. -/
theorem C1_floor_accumulation_witness :
    0 < 2 / 1 ∧
      analyse 2 1 (by norm_num) id [1] [1] =
        specAnalyse (fun z => ⌊z⌋) 2 1 (by norm_num) id [1] [1] :=
  ⟨by norm_num, C1_floor_accumulation 2 1 (by norm_num) id [1] [1]⟩

lemma hannW_two_zero : hannW 2 0 = 0 := by
  unfold hannW
  norm_num

lemma hannW_two_one : hannW 2 1 = 1 := by
  unfold hannW
  rw [show 2 * π * ((1 : ℕ) : ℝ) / ((2 : ℕ) : ℝ) = π by push_cast; ring,
    Real.cos_pi]
  norm_num

lemma applyHann_two (x y : ℝ) : applyHann 2 [x, y] = [0, y] := by
  unfold applyHann
  rw [show List.range 2 = [0, 1] by rfl]
  simp [hannW_two_zero, hannW_two_one]

lemma magnitudes_two (x y : ℝ) :
    magnitudes 2 [x, y] = [Real.sqrt (x ^ 2 + y ^ 2)] := by
  unfold magnitudes
  rw [show (2 : ℕ) / 2 = 1 by rfl, show List.range 1 = [0] by rfl]
  simp

lemma sqrt_cex_b : Real.sqrt ((0 : ℝ) ^ 2 + (99993 / 100000) ^ 2) =
    99993 / 100000 := by
  rw [show (0 : ℝ) ^ 2 + (99993 / 100000) ^ 2 = ((99993 : ℝ) / 100000) ^ 2 by
    ring]
  exact Real.sqrt_sq (by norm_num)

lemma sqrt_cex_diff : Real.sqrt (((1 : ℝ) - 99993 / 100000) ^ 2) =
    7 / 100000 := by
  rw [show ((1 : ℝ) - 99993 / 100000) ^ 2 = ((7 : ℝ) / 100000) ^ 2 by norm_num]
  exact Real.sqrt_sq (by norm_num)

lemma sqrt_lit_a : Real.sqrt (9998600049 : ℝ) = 99993 := by
  rw [show (9998600049 : ℝ) = (99993 : ℝ) ^ 2 by norm_num]
  exact Real.sqrt_sq (by norm_num)

lemma sqrt_lit_b : Real.sqrt (10000000000 : ℝ) = 100000 := by
  rw [show (10000000000 : ℝ) = (100000 : ℝ) ^ 2 by norm_num]
  exact Real.sqrt_sq (by norm_num)

lemma sqrt_lit_c : Real.sqrt (49 : ℝ) = 7 := by
  rw [show (49 : ℝ) = (7 : ℝ) ^ 2 by norm_num]
  exact Real.sqrt_sq (by norm_num)

lemma analyseData_cex_src :
    analyseData 2 1 (by norm_num) id [0, 1] [0, 99993 / 100000] =
      (2, 0, 1, [[(7 : ℝ) / 100000], [0]]) := by
  unfold analyseData
  rw [analyseLoop.eq_def]
  norm_num [fillTailA, fillTailB, zerosR, scrollWin, applyHann_two,
    magnitudes_two, diffBins, rtrunc, Real.sqrt_one, Real.sqrt_zero,
    sqrt_cex_b, sqrt_cex_diff, sqrt_lit_a, sqrt_lit_b, sqrt_lit_c]
  rw [analyseLoop.eq_def]
  norm_num [fillTailA, fillTailB, zerosR, scrollWin, applyHann_two,
    magnitudes_two, diffBins, rtrunc, Real.sqrt_one, Real.sqrt_zero,
    sqrt_lit_a, sqrt_lit_b, sqrt_lit_c]
  rw [show List.replicate 2 (0 : ℝ) = [0, 0] from rfl, applyHann_two,
    magnitudes_two]
  norm_num

lemma abs_cex : |(1 : ℝ) - 99993 / 100000| = 7 / 100000 := by
  rw [show (1 : ℝ) - 99993 / 100000 = 7 / 100000 by norm_num,
    abs_of_pos (by norm_num : (0 : ℝ) < 7 / 100000)]

lemma abs_cex7 : |(7 : ℝ) / 100000| = 7 / 100000 :=
  abs_of_pos (by norm_num : (0 : ℝ) < 7 / 100000)

lemma specData_cex :
    specAnalyseLoop (fun z => round z) 2 (2 / 1) (by norm_num) id [0, 1]
      [0, 99993 / 100000] (zerosR 2) (zerosR 2) 0 0 0 [] =
      (2, 1, 1, [[(7 : ℝ) / 100000], [0]]) := by
  rw [specAnalyseLoop.eq_def]
  norm_num [fillTailA, fillTailB, zerosR, scrollWin, applyHann_two,
    magnitudes_two, abs_cex, abs_cex7, round_eq, Real.sqrt_one,
    Real.sqrt_zero, sqrt_lit_a, sqrt_lit_b, sqrt_lit_c]
  rw [specAnalyseLoop.eq_def]
  norm_num [fillTailA, fillTailB, zerosR, scrollWin, applyHann_two,
    magnitudes_two, abs_cex, abs_cex7, round_eq, Real.sqrt_one,
    Real.sqrt_zero, sqrt_lit_a, sqrt_lit_b, sqrt_lit_c]
  rw [show List.replicate 2 (0 : ℝ) = [0, 0] from rfl, applyHann_two,
    magnitudes_two]
  norm_num

/-- Claim C1, counterexample: the claim's accumulation law, read with
rounding to nearest as it states, disagrees with the source on a
concrete run — the source truncates `0.7` to 0 and returns
`difference = 0`, while the claimed `round(diff * 10000)` accumulation
would return 1. -/
theorem C1_round_cex :
    (analyse 2 1 (by norm_num) id [0, 1] [0, 99993 / 100000]).difference ≠
      (specAnalyse (fun z => round z) 2 1 (by norm_num) id [0, 1]
        [0, 99993 / 100000]).difference := by
  unfold analyse specAnalyse
  rw [analyseData_cex_src, specData_cex]
  norm_num

/-- Claim C10: for every pair of input streams (including an empty
primary stream, i.e. a primary callback that returns 0 samples on its
first request) `Analyser::Analyse` invokes the output callback at least
once, and `Output.windows` equals the number of output-callback
invocations, so `Output.windows ≥ 1`. -/
theorem C10_windows_ge_one (nw overlaps : ℕ) (hpos : 0 < nw / overlaps)
    (fft : List ℝ → List ℝ) (sa sb : List ℝ) :
    (analyse nw overlaps hpos fft sa sb).wins =
      (analyseData nw overlaps hpos fft sa sb).2.2.2.length ∧
    1 ≤ (analyse nw overlaps hpos fft sa sb).wins := by
  have h := analyseLoop_count nw (nw / overlaps) hpos fft sa.length sa
    (le_refl _) sb (zerosR nw) (zerosR nw) 0 0 0 []
  simp only [List.length_nil, Nat.add_zero] at h
  unfold analyse analyseData
  dsimp only
  exact ⟨by omega, by omega⟩

/-- Claim C10, witness: the empty primary stream still yields one
analysed window. -/
theorem C10_windows_ge_one_witness :
    0 < 2 / 1 ∧
      ((analyse 2 1 (by norm_num) id ([] : List ℝ) ([] : List ℝ)).wins =
        (analyseData 2 1 (by norm_num) id ([] : List ℝ)
          ([] : List ℝ)).2.2.2.length ∧
      1 ≤ (analyse 2 1 (by norm_num) id ([] : List ℝ) ([] : List ℝ)).wins) :=
  ⟨by norm_num, C10_windows_ge_one 2 1 (by norm_num) id [] []⟩

/-- Claim C7 (code bug): when the primary source delivers `read = 2`
and the secondary delivers `read2 = 3` of a requested hop of 4, the
secondary's tail is zeroed from offset `read` for `hop - read` entries
(the primary's counts — `memset(window_b + ... + read, 0,
to_read_length - read)`), wiping the delivered third sample, instead of
the claimed `hop - read2` entries after the delivered `read2` samples. -/
theorem C7_padding_uses_primary_read :
    fillTailB 4 4 2 3 [9, 9, 9, 9] [5, 5, 5] = [5, 5, 0, 0] ∧
      ([5, 5, 0, 0] : List ℝ) ≠ [5, 5, 5, 0] := by
  constructor
  · simp [fillTailB, zerosR]
  · intro h
    norm_num at h

lemma exp_avg_log_eq_sqrt (x y : ℝ) (hx : 0 < x) (hy : 0 < y) :
    Real.exp ((Real.log x + Real.log y) / 2) = Real.sqrt (x * y) := by
  rw [Real.sqrt_eq_rpow, Real.rpow_def_of_pos (mul_pos hx hy),
    Real.log_mul hx.ne' hy.ne']
  congr 1
  ring

lemma foldl_best_le (scores : ℕ → ℝ) (l : List ℕ) (b : ℕ) :
    scores (l.foldl (fun best i => if scores i < scores best then i else best) b)
        ≤ scores b ∧
      ∀ i ∈ l,
        scores (l.foldl (fun best i => if scores i < scores best then i else best) b)
          ≤ scores i := by
  induction l generalizing b with
  | nil => exact ⟨le_refl _, by simp⟩
  | cons a t ih =>
      simp only [List.foldl_cons]
      have step_le_b : scores (if scores a < scores b then a else b) ≤ scores b := by
        split
        · exact le_of_lt (by assumption)
        · exact le_refl _
      have step_le_a : scores (if scores a < scores b then a else b) ≤ scores a := by
        split
        · exact le_refl _
        · exact le_of_not_lt (by assumption)
      obtain ⟨h1, h2⟩ := ih (if scores a < scores b then a else b)
      refine ⟨h1.trans step_le_b, ?_⟩
      intro i hi
      rcases List.mem_cons.mp hi with rfl | hmem
      · exact h1.trans step_le_a
      · exact h2 i hmem

lemma foldl_best_mem (scores : ℕ → ℝ) (l : List ℕ) (b : ℕ) :
    l.foldl (fun best i => if scores i < scores best then i else best) b ∈
      b :: l := by
  induction l generalizing b with
  | nil => simp
  | cons a t ih =>
      simp only [List.foldl_cons]
      have h := ih (if scores a < scores b then a else b)
      rcases List.mem_cons.mp h with h1 | h1
      · rw [h1]
        split
        · exact List.mem_cons_of_mem _ (List.mem_cons_self _ _)
        · exact List.mem_cons_self _ _
      · exact List.mem_cons_of_mem _ (List.mem_cons_of_mem _ h1)

lemma foldl_second_props (scores : ℕ → ℝ) (fb : ℕ) (l : List ℕ) (b : ℕ)
    (hb : b ≠ fb) :
    (l.foldl (fun sb i => if i = fb then sb
        else if scores i < scores sb then i else sb) b ≠ fb) ∧
      scores (l.foldl (fun sb i => if i = fb then sb
        else if scores i < scores sb then i else sb) b) ≤ scores b ∧
      ∀ i ∈ l, i ≠ fb →
        scores (l.foldl (fun sb i => if i = fb then sb
          else if scores i < scores sb then i else sb) b) ≤ scores i := by
  induction l generalizing b with
  | nil => exact ⟨hb, le_refl _, by simp⟩
  | cons a t ih =>
      simp only [List.foldl_cons]
      by_cases ha : a = fb
      · rw [if_pos ha]
        obtain ⟨p1, p2, p3⟩ := ih b hb
        refine ⟨p1, p2, ?_⟩
        intro i hi hif
        rcases List.mem_cons.mp hi with rfl | hm
        · exact absurd ha hif
        · exact p3 i hm hif
      · rw [if_neg ha]
        have hacc : (if scores a < scores b then a else b) ≠ fb := by
          split
          · exact ha
          · exact hb
        obtain ⟨p1, p2, p3⟩ := ih _ hacc
        have acc_le_b : scores (if scores a < scores b then a else b) ≤ scores b := by
          split
          · exact le_of_lt (by assumption)
          · exact le_refl _
        have acc_le_a : scores (if scores a < scores b then a else b) ≤ scores a := by
          split
          · exact le_refl _
          · exact le_of_not_lt (by assumption)
        refine ⟨p1, p2.trans acc_le_b, ?_⟩
        intro i hi hif
        rcases List.mem_cons.mp hi with rfl | hm
        · exact p2.trans acc_le_a
        · exact p3 i hm hif

lemma foldl_second_mem (scores : ℕ → ℝ) (fb : ℕ) (l : List ℕ) (b : ℕ) :
    l.foldl (fun sb i => if i = fb then sb
      else if scores i < scores sb then i else sb) b ∈ b :: l := by
  induction l generalizing b with
  | nil => simp
  | cons a t ih =>
      simp only [List.foldl_cons]
      by_cases ha : a = fb
      · rw [if_pos ha]
        have h := ih b
        rcases List.mem_cons.mp h with h1 | h1
        · rw [h1]
          exact List.mem_cons_self _ _
        · exact List.mem_cons_of_mem _ (List.mem_cons_of_mem _ h1)
      · rw [if_neg ha]
        have h := ih (if scores a < scores b then a else b)
        rcases List.mem_cons.mp h with h1 | h1
        · rw [h1]
          split
          · exact List.mem_cons_of_mem _ (List.mem_cons_self _ _)
          · exact List.mem_cons_self _ _
        · exact List.mem_cons_of_mem _ (List.mem_cons_of_mem _ h1)

/-- Claim C9, amended: in each generation only the four fields
`short_gain`, `long_gain`, `noise_gain`, `distortion` of the seed are
scaled by a random factor, and only `noise_gain` (≤ 0.06) and
`distortion` (≤ 8) are clamped; the candidate's `clink_gain` is not
derived from the seed at all (it is an uninitialized read). The two
candidates with the lowest difference scores are selected, and the next
seed has those four fields equal to the geometric mean
`exp((ln a + ln b)/2) = sqrt(a*b)` of the winners' fields, while its
`clink_gain` keeps the old seed's value. -/
theorem C9_generation (scores : ℕ → ℝ) (s a b : HatSettings)
    (r1 r2 r3 r4 junk : ℝ) :
    (firstBest scores < 16 ∧ secondBest scores (firstBest scores) < 16 ∧
      secondBest scores (firstBest scores) ≠ firstBest scores) ∧
    (∀ i, i < 16 → scores (firstBest scores) ≤ scores i) ∧
    (∀ i, i < 16 → i ≠ firstBest scores →
      scores (secondBest scores (firstBest scores)) ≤ scores i) ∧
    ((0 < a.short_gain → 0 < b.short_gain →
      (mixSeed s a b).short_gain = Real.sqrt (a.short_gain * b.short_gain)) ∧
     (0 < a.long_gain → 0 < b.long_gain →
      (mixSeed s a b).long_gain = Real.sqrt (a.long_gain * b.long_gain)) ∧
     (0 < a.noise_gain → 0 < b.noise_gain →
      (mixSeed s a b).noise_gain = Real.sqrt (a.noise_gain * b.noise_gain)) ∧
     (0 < a.distortion → 0 < b.distortion →
      (mixSeed s a b).distortion = Real.sqrt (a.distortion * b.distortion))) ∧
    (mixSeed s a b).clink_gain = s.clink_gain ∧
    ((mutateChild s r1 r2 r3 r4 junk).short_gain =
        s.short_gain * (r1 * 0.75 + 1.25) ∧
     (mutateChild s r1 r2 r3 r4 junk).long_gain =
        s.long_gain * (r2 * 0.75 + 1.25) ∧
     (mutateChild s r1 r2 r3 r4 junk).noise_gain ≤ 0.06 ∧
     (mutateChild s r1 r2 r3 r4 junk).distortion ≤ 8 ∧
     (mutateChild s r1 r2 r3 r4 junk).clink_gain = junk) := by
  have hfb_mem := foldl_best_mem scores (List.range 16) 0
  have hfb_lt : firstBest scores < 16 := by
    unfold firstBest
    rcases List.mem_cons.mp hfb_mem with h | h
    · rw [h]
      norm_num
    · exact List.mem_range.mp h
  have hinit_ne : (firstBest scores + 1) % 16 ≠ firstBest scores := by
    omega
  have hinit_lt : (firstBest scores + 1) % 16 < 16 := Nat.mod_lt _ (by norm_num)
  have hsb_mem := foldl_second_mem scores (firstBest scores) (List.range 16)
    ((firstBest scores + 1) % 16)
  have hsb_lt : secondBest scores (firstBest scores) < 16 := by
    unfold secondBest
    rcases List.mem_cons.mp hsb_mem with h | h
    · rw [h]
      exact hinit_lt
    · exact List.mem_range.mp h
  have hsb := foldl_second_props scores (firstBest scores) (List.range 16)
    ((firstBest scores + 1) % 16) hinit_ne
  refine ⟨⟨hfb_lt, hsb_lt, hsb.1⟩, ?_, ?_, ?_, rfl, rfl, rfl, ?_, ?_, rfl⟩
  · intro i hi
    exact (foldl_best_le scores (List.range 16) 0).2 i (List.mem_range.mpr hi)
  · intro i hi hne
    exact hsb.2.2 i (List.mem_range.mpr hi) hne
  · exact ⟨fun hx hy => exp_avg_log_eq_sqrt _ _ hx hy,
      fun hx hy => exp_avg_log_eq_sqrt _ _ hx hy,
      fun hx hy => exp_avg_log_eq_sqrt _ _ hx hy,
      fun hx hy => exp_avg_log_eq_sqrt _ _ hx hy⟩
  · unfold mutateChild
    dsimp only
    rw [cMin_eq]
    exact min_le_right _ _
  · unfold mutateChild
    dsimp only
    rw [cMin_eq]
    exact min_le_right _ _

/-- Claim C9, amended, witness. -/
theorem C9_generation_witness :
    ((3 : ℕ) < 16 ∧
      ((firstBest (fun i => (i : ℝ)) : ℕ) : ℝ) ≤ ((3 : ℕ) : ℝ)) ∧
    ((0 : ℝ) < 1 ∧ (0 : ℝ) < 4 ∧
      (mixSeed ⟨1, 1, 1, 1, 3 / 100⟩ ⟨1, 1, 1, 1, 1⟩
        ⟨4, 4, 4, 4, 4⟩).short_gain = Real.sqrt (1 * 4)) :=
  ⟨⟨by norm_num,
    (C9_generation (fun i => (i : ℝ)) ⟨1, 1, 1, 1, 3 / 100⟩ ⟨1, 1, 1, 1, 1⟩
      ⟨4, 4, 4, 4, 4⟩ 0 0 0 0 7).2.1 3 (by norm_num)⟩,
   by norm_num, by norm_num,
   (C9_generation (fun i => (i : ℝ)) ⟨1, 1, 1, 1, 3 / 100⟩ ⟨1, 1, 1, 1, 1⟩
      ⟨4, 4, 4, 4, 4⟩ 0 0 0 0 7).2.2.2.1.1 (by norm_num) (by norm_num)⟩

/-- Claim C9, counterexample: a candidate's `clink_gain` is never
derived from the seed (it is uninitialized in the source), and the next
seed's `clink_gain` is not the geometric mean of the winners' values:
with winners whose (junk) `clink_gain`s are 1 and 4, the recombined
seed keeps `0.03` while `exp((ln 1 + ln 4)/2) = 2`. -/
theorem C9_clink_cex :
    (mixSeed ⟨1, 1, 1, 1, 3 / 100⟩
        (mutateChild ⟨1, 1, 1, 1, 3 / 100⟩ 0 0 0 0 1)
        (mutateChild ⟨1, 1, 1, 1, 3 / 100⟩ 0 0 0 0 4)).clink_gain ≠
      Real.exp ((Real.log (mutateChild ⟨1, 1, 1, 1, 3 / 100⟩ 0 0 0 0 1).clink_gain +
        Real.log (mutateChild ⟨1, 1, 1, 1, 3 / 100⟩ 0 0 0 0 4).clink_gain) / 2) := by
  have h1 : (mutateChild ⟨1, 1, 1, 1, 3 / 100⟩ 0 0 0 0 1).clink_gain = 1 := rfl
  have h2 : (mutateChild ⟨1, 1, 1, 1, 3 / 100⟩ 0 0 0 0 4).clink_gain = 4 := rfl
  have h3 : (mixSeed ⟨1, 1, 1, 1, 3 / 100⟩
      (mutateChild ⟨1, 1, 1, 1, 3 / 100⟩ 0 0 0 0 1)
      (mutateChild ⟨1, 1, 1, 1, 3 / 100⟩ 0 0 0 0 4)).clink_gain = 3 / 100 := rfl
  rw [h1, h2, h3, Real.log_one]
  have h4 : Real.exp ((0 + Real.log 4) / 2) = 2 := by
    rw [zero_add, show (4 : ℝ) = 2 ^ 2 by norm_num, Real.log_pow]
    push_cast
    rw [show (2 : ℝ) * Real.log 2 / 2 = Real.log 2 by ring,
      Real.exp_log (by norm_num)]
  rw [h4]
  norm_num

/-- Claim C8, witness at a concrete oscillator and step count. -/
theorem C8_oscillator_invariants_witness :
    (0 : ℝ) ≤ 1 ∧ (0 : ℝ) ≤ 2 ∧ (0 : ℝ) ≤ 1000 ∧ (0 : ℝ) < 4 ∧
      (∀ k u, 0 ≤ u → u ≤ 1 → 0 ≤ (fun (_ : ℕ) (v : ℝ) => v) k u) ∧
      ((0 ≤ (oscStepN (fun _ v => v) (oscMk 1 2 0 0 1000 4) 3).phase ∧
        (oscStepN (fun _ v => v) (oscMk 1 2 0 0 1000 4) 3).phase < 2 * π ∧
        (oscStepN (fun _ v => v) (oscMk 1 2 0 0 1000 4) 3).sweep ≤
          (oscStepN (fun _ v => v) (oscMk 1 2 0 0 1000 4) 4).sweep ∧
        (oscStepN (fun _ v => v) (oscMk 1 2 0 0 1000 4) 3).sweep ≤ 1) ∧
      (0 ≤ (osc2StepN (osc2Mk 1 2 0 0 1000 1 4) 3).phase ∧
        (osc2StepN (osc2Mk 1 2 0 0 1000 1 4) 3).phase < 2 * π ∧
        (osc2StepN (osc2Mk 1 2 0 0 1000 1 4) 3).sweep ≤
          (osc2StepN (osc2Mk 1 2 0 0 1000 1 4) 4).sweep ∧
        (osc2StepN (osc2Mk 1 2 0 0 1000 1 4) 3).sweep ≤ 1)) :=
  ⟨by norm_num, by norm_num, by norm_num, by norm_num, fun k u h _ => h,
   C8_oscillator_invariants 1 2 0 0 1000 1 4 (fun _ v => v) 3
     (by norm_num) (by norm_num) (by norm_num) (by norm_num) (fun k u h _ => h)⟩

end Matsu
